import Mathlib

/-!
Shallow embedding of the Dog Birthday Guestbook API (`src/main.py`) and
proofs about its data-access and validation layer.

The embedding models:
* `_clean` — whitespace normalization (`" ".join((s or "").strip().split())`);
* the SQLite store as two lists of rows plus their AUTOINCREMENT counters;
* the five request handlers (`create_guestbook`, `list_guestbook`,
  `delete_guestbook`, `create_rsvp`, `list_rsvp`) and `_admin_guard`
  as pure functions threading the store explicitly; `HTTPException`
  becomes an `Except` error; the current timestamp is a parameter.
-/

namespace DogBirthday

/-- Whitespace characters recognized by the runtime `str.split()` /
`str.strip()` for the inputs this service handles (ASCII space, tab,
line feed, carriage return, vertical tab, form feed). -/
def isSpc (c : Char) : Bool :=
  c = ' ' || c = '\t' || c = '\n' || c = '\r' || c = Char.ofNat 11 || c = Char.ofNat 12

/-- Negation of `isSpc`: a character that belongs to a word. -/
def nw (c : Char) : Bool := !isSpc c

/-- Python `str.split()` with no separator, as the runtime computes it:
scan the characters, accumulating the current word (in reverse) and
emitting it at each whitespace boundary; no empty words are produced. -/
def splitAux : List Char → List Char → List (List Char)
  | [], [] => []
  | [], cur => [cur.reverse]
  | c :: rest, cur =>
    if isSpc c then
      if cur.isEmpty then splitAux rest []
      else cur.reverse :: splitAux rest []
    else splitAux rest (c :: cur)

/-- Separator-prefixed join: `sepJoin ws` is `" " ++ w` for each word. -/
def sepJoin : List (List Char) → List Char
  | [] => []
  | w :: ws => ' ' :: (w ++ sepJoin ws)

/-- Python `" ".join(words)`. -/
def joinSp : List (List Char) → List Char
  | [] => []
  | w :: ws => w ++ sepJoin ws

/-- Python `str.strip()`: drop leading and trailing whitespace. -/
def stripL (l : List Char) : List Char :=
  ((l.dropWhile isSpc).reverse.dropWhile isSpc).reverse

/-- The body of `_clean` on character lists:
`" ".join(s.strip().split())`. -/
def cleanL (l : List Char) : List Char :=
  joinSp (splitAux (stripL l) [])

/-- `_clean(s)` where `s` may be `None`:
`" ".join((s or "").strip().split())`. -/
def cleanOpt (s : Option String) : String :=
  ⟨cleanL (s.getD "").data⟩

/-- `_clean` applied to a present string. -/
def clean (s : String) : String := cleanOpt (some s)

/-- HTTP error raised by a handler: `HTTPException(status_code, detail)`. -/
structure HTTPError where
  status : Nat
  detail : String
  deriving DecidableEq

/-- The parts of the HTTP request the handlers read: the `x-admin-pass`
header and the `pass` query parameter (`none` means absent). -/
structure Request where
  xAdminPass : Option String
  passParam : Option String

/-- Python truthiness of an optional string: `None` and `""` are falsy. -/
def pyTruthy : Option String → Bool
  | none => false
  | some s => !(s == "")

/-- Python `a or b` on optional strings: `a` when truthy, else `b`. -/
def pyOr (a b : Option String) : Option String :=
  if pyTruthy a then a else b

/-- `_admin_guard`: take
`p = request.headers.get("x-admin-pass") or request.query_params.get("pass")`
and raise 401 unless `p` is truthy and equal to the configured secret. -/
def adminGuard (secret : String) (req : Request) : Except HTTPError Unit :=
  if ¬ pyTruthy (pyOr req.xAdminPass req.passParam) ∨
      pyOr req.xAdminPass req.passParam ≠ some secret then
    .error ⟨401, "Unauthorized"⟩
  else
    .ok ()

/-- The default value of the `ADMIN_PASS` environment variable. -/
def ADMIN_PASS : String := "0718"

/-- A row of the `guestbook` table. -/
structure GRow where
  id : Nat
  created_at : String
  name : String
  message : String
  deriving DecidableEq

/-- A row of the `rsvp` table. -/
structure RRow where
  id : Nat
  created_at : String
  name : String
  contact : String
  attend : String
  people : Int
  memo : String
  deriving DecidableEq

/-- The SQLite database: the two tables together with their AUTOINCREMENT
counters (`AUTOINCREMENT` assigns fresh, never-reused, increasing ids;
rows are kept in insertion order, ordering is applied at query time). -/
structure Store where
  guestbook : List GRow
  gNext : Nat
  rsvp : List RRow
  rNext : Nat
  deriving DecidableEq

/-- `GuestbookIn`: the raw request body of `POST /api/guestbook`. -/
structure GuestbookIn where
  name : String
  message : String

/-- The pydantic validation of `GuestbookIn`
(`min_length`/`max_length` on the raw, un-normalized input). -/
def GuestbookIn.valid (p : GuestbookIn) : Prop :=
  1 ≤ p.name.length ∧ p.name.length ≤ 60 ∧
  1 ≤ p.message.length ∧ p.message.length ≤ 800

instance (p : GuestbookIn) : Decidable p.valid := by
  unfold GuestbookIn.valid; infer_instance

/-- `RSVPIn`: the raw request body of `POST /api/rsvp`. -/
structure RSVPIn where
  name : String
  contact : String
  attend : String
  people : Int
  memo : Option String

/-- The pydantic validation of `RSVPIn` on the raw input. -/
def RSVPIn.valid (p : RSVPIn) : Prop :=
  1 ≤ p.name.length ∧ p.name.length ≤ 60 ∧
  3 ≤ p.contact.length ∧ p.contact.length ≤ 80 ∧
  2 ≤ p.attend.length ∧ p.attend.length ≤ 10 ∧
  1 ≤ p.people ∧ p.people ≤ 20 ∧
  (p.memo.getD "").length ≤ 300

instance (p : RSVPIn) : Decidable p.valid := by
  unfold RSVPIn.valid; infer_instance

/-- `create_guestbook`: normalize the fields, insert them with the current
timestamp and a fresh id, and return the new id (`last_insert_rowid`). -/
def createGuestbook (s : Store) (p : GuestbookIn) (now : String) :
    Store × Except HTTPError Nat :=
  let name := clean p.name
  let msg := clean p.message
  let row : GRow := ⟨s.gNext, now, name, msg⟩
  ({ s with guestbook := s.guestbook ++ [row], gNext := s.gNext + 1 }, .ok s.gNext)

/-- The effective limit of `list_guestbook`:
`max(1, min(int(limit or 100), 500))`, with FastAPI supplying the default
`100` when the query parameter is absent. -/
def effLimitG (limit : Option Int) : Int :=
  let v := limit.getD 100
  max 1 (min (if v = 0 then 100 else v) 500)

/-- Descending comparison used by `ORDER BY id DESC` on guestbook rows. -/
def gDesc (a b : GRow) : Prop := b.id ≤ a.id

instance : DecidableRel gDesc := fun a b => Nat.decLe b.id a.id

/-- `ORDER BY id DESC` on the guestbook table. -/
def orderByIdDescG (rows : List GRow) : List GRow :=
  rows.insertionSort gDesc

/-- `list_guestbook`: clamp the limit, then
`SELECT ... ORDER BY id DESC LIMIT ?`.  The store is returned unchanged. -/
def listGuestbook (s : Store) (limit : Option Int) : Store × List GRow :=
  (s, (orderByIdDescG s.guestbook).take (effLimitG limit).toNat)

/-- `delete_guestbook`: admin guard, then
`DELETE FROM guestbook WHERE id = ?`; a 404 is raised when the statement
deleted no row (`rowcount <= 0`). -/
def deleteGuestbook (s : Store) (req : Request) (secret : String) (itemId : Nat) :
    Store × Except HTTPError Unit :=
  match adminGuard secret req with
  | .error e => (s, .error e)
  | .ok _ =>
    let remaining := s.guestbook.filter (fun r => r.id != itemId)
    let deleted := s.guestbook.length - remaining.length
    if deleted ≤ 0 then ({ s with guestbook := remaining }, .error ⟨404, "Not found"⟩)
    else ({ s with guestbook := remaining }, .ok ())

/-- `create_rsvp`: normalize the fields, reject with a 400 when the
normalized `attend` is not one of `yes`/`maybe`/`no` (before any insert),
otherwise insert and return the new id. -/
def createRsvp (s : Store) (p : RSVPIn) (now : String) :
    Store × Except HTTPError Nat :=
  let name := clean p.name
  let contact := clean p.contact
  let attend := clean p.attend
  let memo := clean (p.memo.getD "")
  if attend ∉ (["yes", "maybe", "no"] : List String) then
    (s, .error ⟨400, "attend must be yes/maybe/no"⟩)
  else
    let row : RRow := ⟨s.rNext, now, name, contact, attend, p.people, memo⟩
    ({ s with rsvp := s.rsvp ++ [row], rNext := s.rNext + 1 }, .ok s.rNext)

/-- The effective limit of `list_rsvp`:
`max(1, min(int(limit or 300), 1000))`, default `300` when absent. -/
def effLimitR (limit : Option Int) : Int :=
  let v := limit.getD 300
  max 1 (min (if v = 0 then 300 else v) 1000)

/-- Descending comparison used by `ORDER BY id DESC` on rsvp rows. -/
def rDesc (a b : RRow) : Prop := b.id ≤ a.id

instance : DecidableRel rDesc := fun a b => Nat.decLe b.id a.id

/-- `ORDER BY id DESC` on the rsvp table. -/
def orderByIdDescR (rows : List RRow) : List RRow :=
  rows.insertionSort rDesc

/-- `list_rsvp`: admin guard, clamp the limit, then
`SELECT ... ORDER BY id DESC LIMIT ?`.  The store is returned unchanged. -/
def listRsvp (s : Store) (req : Request) (secret : String) (limit : Option Int) :
    Store × Except HTTPError (List RRow) :=
  match adminGuard secret req with
  | .error e => (s, .error e)
  | .ok _ => (s, .ok ((orderByIdDescR s.rsvp).take (effLimitR limit).toNat))

/-! ### Helper lemmas -/

/-- A filter keeps every element exactly when its length is unchanged. -/
theorem filter_length_eq_iff {α : Type} (p : α → Bool) (l : List α) :
    (l.filter p).length = l.length ↔ ∀ a ∈ l, p a := by
  induction l with
  | nil => simp
  | cons x xs ih =>
    by_cases hx : p x
    · simp [hx, ih]
    · simp only [List.filter_cons, hx, Bool.false_eq_true, if_false, List.length_cons]
      constructor
      · intro h
        exact absurd h (Nat.ne_of_lt (Nat.lt_succ_of_le (List.length_filter_le _ _)))
      · intro h
        exact absurd (h x (List.mem_cons_self x xs)) (by simp [hx])

/-- The `rowcount <= 0` test of `delete_guestbook` holds exactly when no
row matched the id. -/
theorem delete_rowcount_iff (l : List GRow) (i : Nat) :
    l.length - (l.filter (fun r => r.id != i)).length ≤ 0 ↔ ∀ r ∈ l, r.id ≠ i := by
  rw [Nat.le_zero, Nat.sub_eq_zero_iff_le]
  constructor
  · intro h r hr hi
    have heq : (l.filter (fun r => r.id != i)).length = l.length :=
      Nat.le_antisymm (List.length_filter_le _ _) h
    have := (filter_length_eq_iff _ l).mp heq r hr
    simp [hi] at this
  · intro h
    exact Nat.le_of_eq ((filter_length_eq_iff _ l).mpr (fun r hr => by simp [h r hr])).symm

/-! ### Claim theorems -/

/-- C2: `create_rsvp` fails with the 400 client error exactly when the
normalized `attend` value is not one of the lowercase strings `yes`,
`maybe`, `no`; on that failure the store is unchanged (the error is raised
before any insert); and `attend="YES"` in particular is rejected since
normalization preserves case. -/
theorem create_rsvp_attend_check : ∀ (s : Store) (p : RSVPIn) (now : String),
    (clean p.attend ∉ (["yes", "maybe", "no"] : List String) →
      createRsvp s p now = (s, .error ⟨400, "attend must be yes/maybe/no"⟩)) ∧
    (clean p.attend ∈ (["yes", "maybe", "no"] : List String) →
      (createRsvp s p now).2 = .ok s.rNext) ∧
    clean "YES" ∉ (["yes", "maybe", "no"] : List String) := by
  intro s p now
  refine ⟨fun h => ?_, fun h => ?_, by decide⟩
  · simp [createRsvp, h]
  · simp [createRsvp, h]

/-- Witness for C2: a concrete `attend="YES"` request is rejected with the
400 error and the store is untouched. -/
theorem create_rsvp_attend_check_witness :
    createRsvp ⟨[], 1, [], 1⟩ ⟨"Bob", "bob@c.io", "YES", 2, none⟩ "T" =
      (⟨[], 1, [], 1⟩, .error ⟨400, "attend must be yes/maybe/no"⟩) :=
  (create_rsvp_attend_check ⟨[], 1, [], 1⟩ ⟨"Bob", "bob@c.io", "YES", 2, none⟩ "T").1
    (by decide)

/-- C4: the effective limit of `list_guestbook` is the requested value
clamped into `[1, 500]`, with `100` used when the parameter is absent or
zero (`limit or 100`), and `limit=99999` clamps to `500`; likewise
`list_rsvp` clamps into `[1, 1000]` with default `300`. -/
theorem limit_clamping :
    (∀ v : Int, v ≠ 0 → effLimitG (some v) = max 1 (min v 500)) ∧
    effLimitG none = 100 ∧ effLimitG (some 0) = 100 ∧ effLimitG (some 99999) = 500 ∧
    (∀ v : Int, v ≠ 0 → effLimitR (some v) = max 1 (min v 1000)) ∧
    effLimitR none = 300 ∧ effLimitR (some 0) = 300 ∧ effLimitR (some 99999) = 1000 := by
  refine ⟨fun v hv => by simp [effLimitG, hv], by decide, by decide, by decide,
    fun v hv => by simp [effLimitR, hv], by decide, by decide, by decide⟩

/-- Witness for C4: the nonzero requested value `7` is its own clamp. -/
theorem limit_clamping_witness : effLimitG (some 7) = max 1 (min 7 500) :=
  limit_clamping.1 7 (by decide)

/-- C8: across two successive guestbook creates (any valid payloads) the
id returned by the later call is strictly greater than the id returned by
the earlier call, and the earlier id is distinct from every id already in
the table (ids below the AUTOINCREMENT counter). -/
theorem create_guestbook_ids_increase : ∀ (s : Store) (p1 p2 : GuestbookIn) (t1 t2 : String),
    p1.valid → p2.valid →
    ∃ id1 id2,
      (createGuestbook s p1 t1).2 = .ok id1 ∧
      (createGuestbook (createGuestbook s p1 t1).1 p2 t2).2 = .ok id2 ∧
      id1 < id2 ∧
      ∀ r ∈ s.guestbook, r.id < s.gNext → r.id ≠ id1 := by
  intro s p1 p2 t1 t2 h1 h2
  exact ⟨s.gNext, s.gNext + 1, rfl, rfl, Nat.lt_succ_self _,
    fun r _ hlt => Nat.ne_of_lt hlt⟩

/-- Witness for C8: two concrete valid creates on the empty store return
ids 1 then 2. -/
theorem create_guestbook_ids_increase_witness :
    ∃ id1 id2,
      (createGuestbook ⟨[], 1, [], 1⟩ ⟨"Ann", "Happy birthday!"⟩ "T1").2 = .ok id1 ∧
      (createGuestbook (createGuestbook ⟨[], 1, [], 1⟩ ⟨"Ann", "Happy birthday!"⟩ "T1").1
          ⟨"Ben", "Woof!"⟩ "T2").2 = .ok id2 ∧
      id1 < id2 ∧
      ∀ r ∈ (⟨[], 1, [], 1⟩ : Store).guestbook,
        r.id < (⟨[], 1, [], 1⟩ : Store).gNext → r.id ≠ id1 :=
  create_guestbook_ids_increase ⟨[], 1, [], 1⟩ ⟨"Ann", "Happy birthday!"⟩ ⟨"Ben", "Woof!"⟩
    "T1" "T2" (by decide) (by decide)

/-- C10: guestbook operations leave the `rsvp` table (and its counter)
unchanged, RSVP creation leaves the `guestbook` table unchanged, and both
list operations leave the entire store unchanged. -/
theorem frame_conditions : ∀ (s : Store) (pg : GuestbookIn) (pr : RSVPIn) (req : Request)
    (secret now : String) (itemId : Nat) (limit : Option Int),
    (createGuestbook s pg now).1.rsvp = s.rsvp ∧
    (createGuestbook s pg now).1.rNext = s.rNext ∧
    (deleteGuestbook s req secret itemId).1.rsvp = s.rsvp ∧
    (deleteGuestbook s req secret itemId).1.rNext = s.rNext ∧
    (createRsvp s pr now).1.guestbook = s.guestbook ∧
    (createRsvp s pr now).1.gNext = s.gNext ∧
    (listGuestbook s limit).1 = s ∧
    (listRsvp s req secret limit).1 = s := by
  intro s pg pr req secret now itemId limit
  refine ⟨rfl, rfl, ?_, ?_, ?_, ?_, rfl, ?_⟩
  · unfold deleteGuestbook
    cases adminGuard secret req with
    | error e => rfl
    | ok u => dsimp only; split <;> rfl
  · unfold deleteGuestbook
    cases adminGuard secret req with
    | error e => rfl
    | ok u => dsimp only; split <;> rfl
  · unfold createRsvp
    dsimp only
    split <;> rfl
  · unfold createRsvp
    dsimp only
    split <;> rfl
  · unfold listRsvp
    cases adminGuard secret req with
    | error e => rfl
    | ok u => rfl

/-- C3 (counterexample): with the `x-admin-pass` header present but empty
and the correct secret in the `pass` query parameter, the token of the claim
(header takes precedence when both are present) is `""`, which differs
from the secret, so the claim demands a 401 with a store-independent
response; the code instead falls through to the query parameter
(Python `or` treats `""` as absent), authorizes the request, and returns
the stored rows — two different stores produce two different responses. -/
theorem list_rsvp_empty_header_leaks :
    (some "" : Option String) ≠ some ADMIN_PASS ∧
    (listRsvp ⟨[], 1, [⟨1, "T", "Bob", "bob@c.io", "yes", 2, ""⟩], 2⟩
        ⟨some "", some "0718"⟩ ADMIN_PASS none).2 =
      .ok [⟨1, "T", "Bob", "bob@c.io", "yes", 2, ""⟩] ∧
    (listRsvp ⟨[], 1, [], 1⟩ ⟨some "", some "0718"⟩ ADMIN_PASS none).2 = .ok [] := by
  exact ⟨by decide, rfl, rfl⟩

/-- C3 (amended): the effective token is the header value when it is
present and non-empty, otherwise the query parameter (`pyOr`); whenever
that effective token is missing, empty, or differs from the configured
secret — or the secret itself is empty — `list_rsvp` fails with 401 and
its response is the same for every store contents (no row data leaks). -/
theorem list_rsvp_unauthorized_independent :
    ∀ (req : Request) (secret : String) (limit : Option Int) (s1 s2 : Store),
    (pyOr req.xAdminPass req.passParam ≠ some secret ∨ secret = "") →
    (listRsvp s1 req secret limit).2 = .error ⟨401, "Unauthorized"⟩ ∧
    (listRsvp s1 req secret limit).2 = (listRsvp s2 req secret limit).2 := by
  intro req secret limit s1 s2 h
  have hg : adminGuard secret req = .error ⟨401, "Unauthorized"⟩ := by
    unfold adminGuard
    rcases h with h | h
    · simp [h]
    · subst h
      rcases hp : pyOr req.xAdminPass req.passParam with _ | s
      · simp [hp, pyTruthy]
      · by_cases hs : s = ""
        · subst hs; simp [hp, pyTruthy]
        · simp [hp, hs]
  refine ⟨?_, ?_⟩ <;> simp [listRsvp, hg]

/-- Witness for C3 (amended): a request with no token at all gets a 401
from two different concrete stores, with identical responses. -/
theorem list_rsvp_unauthorized_independent_witness :
    (listRsvp ⟨[], 1, [⟨1, "T", "Bob", "bob@c.io", "yes", 2, ""⟩], 2⟩
        ⟨none, none⟩ "0718" none).2 = .error ⟨401, "Unauthorized"⟩ ∧
    (listRsvp ⟨[], 1, [⟨1, "T", "Bob", "bob@c.io", "yes", 2, ""⟩], 2⟩
        ⟨none, none⟩ "0718" none).2 =
      (listRsvp ⟨[], 1, [], 1⟩ ⟨none, none⟩ "0718" none).2 :=
  list_rsvp_unauthorized_independent ⟨none, none⟩ "0718" none
    ⟨[], 1, [⟨1, "T", "Bob", "bob@c.io", "yes", 2, ""⟩], 2⟩ ⟨[], 1, [], 1⟩
    (Or.inl (by decide))

/-- C6: under a passing admin guard, `delete_guestbook` succeeds exactly
when a row with the requested id exists; it removes every row with that
id; when no row matches it returns the 404 "Not found" error (distinct
from the 401 authorization error) and leaves the store unchanged; hence
deleting the same existing id twice yields success then not-found. -/
theorem delete_guestbook_spec : ∀ (s : Store) (req : Request) (secret : String) (itemId : Nat),
    adminGuard secret req = .ok () →
    ((deleteGuestbook s req secret itemId).2 = .ok () ↔
      ∃ r ∈ s.guestbook, r.id = itemId) ∧
    (deleteGuestbook s req secret itemId).1.guestbook =
      s.guestbook.filter (fun r => r.id != itemId) ∧
    ((¬ ∃ r ∈ s.guestbook, r.id = itemId) →
      deleteGuestbook s req secret itemId = (s, .error ⟨404, "Not found"⟩)) ∧
    ((∃ r ∈ s.guestbook, r.id = itemId) →
      (deleteGuestbook s req secret itemId).2 = .ok () ∧
      (deleteGuestbook (deleteGuestbook s req secret itemId).1 req secret itemId).2 =
        .error ⟨404, "Not found"⟩) ∧
    (⟨404, "Not found"⟩ : HTTPError) ≠ ⟨401, "Unauthorized"⟩ := by
  intro s req secret itemId hAuth
  have hunfold : deleteGuestbook s req secret itemId =
      if s.guestbook.length - (s.guestbook.filter (fun r => r.id != itemId)).length ≤ 0 then
        ({ s with guestbook := s.guestbook.filter (fun r => r.id != itemId) },
          .error ⟨404, "Not found"⟩)
      else ({ s with guestbook := s.guestbook.filter (fun r => r.id != itemId) }, .ok ()) := by
    unfold deleteGuestbook
    rw [hAuth]
  have hcond := delete_rowcount_iff s.guestbook itemId
  have hex : (∃ r ∈ s.guestbook, r.id = itemId) ↔
      ¬ ∀ r ∈ s.guestbook, r.id ≠ itemId := by
    push_neg
    rfl
  refine ⟨?_, ?_, ?_, ?_, by decide⟩
  · constructor
    · intro hok
      rw [hunfold] at hok
      by_cases hc : s.guestbook.length -
          (s.guestbook.filter (fun r => r.id != itemId)).length ≤ 0
      · rw [if_pos hc] at hok
        simp at hok
      · rw [hex]
        exact fun hall => hc (hcond.mpr hall)
    · intro hexr
      have hc : ¬ s.guestbook.length -
          (s.guestbook.filter (fun r => r.id != itemId)).length ≤ 0 :=
        fun hc => (hex.mp hexr) (hcond.mp hc)
      rw [hunfold, if_neg hc]
  · rw [hunfold]
    by_cases hc : s.guestbook.length -
        (s.guestbook.filter (fun r => r.id != itemId)).length ≤ 0
    · rw [if_pos hc]
    · rw [if_neg hc]
  · intro hno
    have hall : ∀ r ∈ s.guestbook, r.id ≠ itemId := by
      intro r hr hi
      exact hno ⟨r, hr, hi⟩
    have hfilter : s.guestbook.filter (fun r => r.id != itemId) = s.guestbook :=
      List.filter_eq_self.mpr (fun r hr => by simp [hall r hr])
    rw [hunfold, if_pos (hcond.mpr hall), hfilter]
  · intro hyes
    have hc : ¬ s.guestbook.length -
        (s.guestbook.filter (fun r => r.id != itemId)).length ≤ 0 := by
      intro hc
      exact (hex.mp hyes) (hcond.mp hc)
    refine ⟨by rw [hunfold, if_neg hc], ?_⟩
    have hstep : (deleteGuestbook s req secret itemId).1.guestbook =
        s.guestbook.filter (fun r => r.id != itemId) := by
      rw [hunfold, if_neg hc]
    have hall2 : ∀ r ∈ (deleteGuestbook s req secret itemId).1.guestbook,
        r.id ≠ itemId := by
      rw [hstep]
      intro r hr
      have := List.of_mem_filter hr
      simpa using this
    have hun2 : deleteGuestbook (deleteGuestbook s req secret itemId).1 req secret itemId =
        if (deleteGuestbook s req secret itemId).1.guestbook.length -
            ((deleteGuestbook s req secret itemId).1.guestbook.filter
              (fun r => r.id != itemId)).length ≤ 0 then
          ({ (deleteGuestbook s req secret itemId).1 with
              guestbook := (deleteGuestbook s req secret itemId).1.guestbook.filter
                (fun r => r.id != itemId) },
            .error ⟨404, "Not found"⟩)
        else ({ (deleteGuestbook s req secret itemId).1 with
              guestbook := (deleteGuestbook s req secret itemId).1.guestbook.filter
                (fun r => r.id != itemId) }, .ok ()) := by
      unfold deleteGuestbook
      rw [hAuth]
    rw [hun2, if_pos ((delete_rowcount_iff _ _).mpr hall2)]

/-- Witness for C6: an authorized delete of the only row (id 1) succeeds,
removes it, and a second authorized delete of id 1 returns "Not found". -/
theorem delete_guestbook_spec_witness :
    ((deleteGuestbook ⟨[⟨1, "T", "Ann", "hi"⟩], 2, [], 1⟩ ⟨some "0718", none⟩ "0718" 1).2 =
        .ok () ↔ ∃ r ∈ [⟨1, "T", "Ann", "hi"⟩], GRow.id r = 1) ∧
    (deleteGuestbook ⟨[⟨1, "T", "Ann", "hi"⟩], 2, [], 1⟩ ⟨some "0718", none⟩ "0718" 1).1.guestbook =
      [⟨1, "T", "Ann", "hi"⟩].filter (fun r => r.id != 1) ∧
    ((¬ ∃ r ∈ [⟨1, "T", "Ann", "hi"⟩], GRow.id r = 1) →
      deleteGuestbook ⟨[⟨1, "T", "Ann", "hi"⟩], 2, [], 1⟩ ⟨some "0718", none⟩ "0718" 1 =
        (⟨[⟨1, "T", "Ann", "hi"⟩], 2, [], 1⟩, .error ⟨404, "Not found"⟩)) ∧
    ((∃ r ∈ [⟨1, "T", "Ann", "hi"⟩], GRow.id r = 1) →
      (deleteGuestbook ⟨[⟨1, "T", "Ann", "hi"⟩], 2, [], 1⟩ ⟨some "0718", none⟩ "0718" 1).2 =
        .ok () ∧
      (deleteGuestbook
          (deleteGuestbook ⟨[⟨1, "T", "Ann", "hi"⟩], 2, [], 1⟩ ⟨some "0718", none⟩ "0718" 1).1
          ⟨some "0718", none⟩ "0718" 1).2 = .error ⟨404, "Not found"⟩) ∧
    (⟨404, "Not found"⟩ : HTTPError) ≠ ⟨401, "Unauthorized"⟩ :=
  delete_guestbook_spec ⟨[⟨1, "T", "Ann", "hi"⟩], 2, [], 1⟩ ⟨some "0718", none⟩ "0718" 1 rfl

instance : IsTotal GRow gDesc := ⟨fun a b => Nat.le_total b.id a.id⟩

instance : IsTrans GRow gDesc := ⟨fun _ _ _ hab hbc => Nat.le_trans hbc hab⟩

instance : IsTotal RRow rDesc := ⟨fun a b => Nat.le_total b.id a.id⟩

instance : IsTrans RRow rDesc := ⟨fun _ _ _ hab hbc => Nat.le_trans hbc hab⟩

/-- Sorting by `gDesc` and truncating yields a strictly descending id
sequence whenever the input ids are distinct. -/
theorem take_sort_strict_desc_g (rows : List GRow) (n : Nat)
    (hnd : (rows.map GRow.id).Nodup) :
    (((orderByIdDescG rows).take n).map GRow.id).Sorted (· > ·) := by
  have hsorted : (orderByIdDescG rows).Sorted gDesc :=
    List.sorted_insertionSort gDesc rows
  have hperm : (orderByIdDescG rows).map GRow.id |>.Perm (rows.map GRow.id) :=
    (List.perm_insertionSort gDesc rows).map GRow.id
  have hnd2 : ((orderByIdDescG rows).map GRow.id).Nodup := hperm.nodup_iff.mpr hnd
  have hge : ((orderByIdDescG rows).map GRow.id).Pairwise (fun a b => b ≤ a) :=
    List.pairwise_map.mpr hsorted
  have hgt : ((orderByIdDescG rows).map GRow.id).Pairwise (· > ·) :=
    (hge.and hnd2).imp (fun h => Nat.lt_of_le_of_ne h.1 (Ne.symm h.2))
  rw [List.map_take]
  exact hgt.sublist (List.take_sublist n _)

/-- Sorting by `rDesc` and truncating yields a strictly descending id
sequence whenever the input ids are distinct. -/
theorem take_sort_strict_desc_r (rows : List RRow) (n : Nat)
    (hnd : (rows.map RRow.id).Nodup) :
    (((orderByIdDescR rows).take n).map RRow.id).Sorted (· > ·) := by
  have hsorted : (orderByIdDescR rows).Sorted rDesc :=
    List.sorted_insertionSort rDesc rows
  have hperm : (orderByIdDescR rows).map RRow.id |>.Perm (rows.map RRow.id) :=
    (List.perm_insertionSort rDesc rows).map RRow.id
  have hnd2 : ((orderByIdDescR rows).map RRow.id).Nodup := hperm.nodup_iff.mpr hnd
  have hge : ((orderByIdDescR rows).map RRow.id).Pairwise (fun a b => b ≤ a) :=
    List.pairwise_map.mpr hsorted
  have hgt : ((orderByIdDescR rows).map RRow.id).Pairwise (· > ·) :=
    (hge.and hnd2).imp (fun h => Nat.lt_of_le_of_ne h.1 (Ne.symm h.2))
  rw [List.map_take]
  exact hgt.sublist (List.take_sublist n _)

/-- C7: both list operations return their rows newest-first — strictly
descending by id, given that the stored ids are distinct — and return at
most the effective limit of rows. -/
theorem list_newest_first : ∀ (s : Store) (req : Request) (secret : String)
    (limit : Option Int),
    ((s.guestbook.map GRow.id).Nodup →
      ((listGuestbook s limit).2.map GRow.id).Sorted (· > ·)) ∧
    (listGuestbook s limit).2.length ≤ (effLimitG limit).toNat ∧
    ((s.rsvp.map RRow.id).Nodup →
      ∀ items, (listRsvp s req secret limit).2 = .ok items →
        (items.map RRow.id).Sorted (· > ·)) ∧
    (∀ items, (listRsvp s req secret limit).2 = .ok items →
      items.length ≤ (effLimitR limit).toNat) := by
  intro s req secret limit
  refine ⟨fun hnd => take_sort_strict_desc_g s.guestbook _ hnd,
    List.length_take_le _ _, fun hnd items hitems => ?_, fun items hitems => ?_⟩
  · unfold listRsvp at hitems
    cases hg : adminGuard secret req with
    | error e => rw [hg] at hitems; simp at hitems
    | ok u =>
      rw [hg] at hitems
      simp only [Except.ok.injEq] at hitems
      rw [← hitems]
      exact take_sort_strict_desc_r s.rsvp _ hnd
  · unfold listRsvp at hitems
    cases hg : adminGuard secret req with
    | error e => rw [hg] at hitems; simp at hitems
    | ok u =>
      rw [hg] at hitems
      simp only [Except.ok.injEq] at hitems
      rw [← hitems]
      exact List.length_take_le _ _

/-- Witness for C7: on a concrete two-row store, the guestbook listing
with `limit=1` and the authorized RSVP listing are strictly descending
and within the limit. -/
theorem list_newest_first_witness :
    ((listGuestbook ⟨[⟨1, "a", "n", "m"⟩, ⟨2, "b", "n2", "m2"⟩], 3,
        [⟨1, "T", "B", "b@c", "yes", 1, ""⟩, ⟨2, "U", "C", "c@d", "no", 2, ""⟩], 3⟩
        (some 1)).2.map GRow.id).Sorted (· > ·) ∧
    (([⟨2, "U", "C", "c@d", "no", 2, ""⟩, ⟨1, "T", "B", "b@c", "yes", 1, ""⟩] :
        List RRow).map RRow.id).Sorted (· > ·) ∧
    ([⟨2, "U", "C", "c@d", "no", 2, ""⟩, ⟨1, "T", "B", "b@c", "yes", 1, ""⟩] :
        List RRow).length ≤ (effLimitR none).toNat := by
  have h := list_newest_first
    ⟨[⟨1, "a", "n", "m"⟩, ⟨2, "b", "n2", "m2"⟩], 3,
      [⟨1, "T", "B", "b@c", "yes", 1, ""⟩, ⟨2, "U", "C", "c@d", "no", 2, ""⟩], 3⟩
    ⟨some "0718", none⟩ "0718" none
  have hg := list_newest_first
    ⟨[⟨1, "a", "n", "m"⟩, ⟨2, "b", "n2", "m2"⟩], 3,
      [⟨1, "T", "B", "b@c", "yes", 1, ""⟩, ⟨2, "U", "C", "c@d", "no", 2, ""⟩], 3⟩
    ⟨some "0718", none⟩ "0718" (some 1)
  exact ⟨hg.1 (by decide),
    h.2.2.1 (by decide) [⟨2, "U", "C", "c@d", "no", 2, ""⟩, ⟨1, "T", "B", "b@c", "yes", 1, ""⟩]
      rfl,
    h.2.2.2 [⟨2, "U", "C", "c@d", "no", 2, ""⟩, ⟨1, "T", "B", "b@c", "yes", 1, ""⟩] rfl⟩

/-! ### Normalization: equivalence with the description in the specification

`_clean` is implemented as `" ".join(s.strip().split())`.  The spec
describes it as "collapse every maximal run of whitespace to a single
ASCII space and trim the ends".  The definitions `collapseWs`/`trimWs`
below follow the wording of the spec; the theorems relate them to the
implementation. -/

/-- Bound used for termination of the recursions below. -/
theorem length_dropWhile_le (p : Char → Bool) (l : List Char) :
    (l.dropWhile p).length ≤ l.length :=
  (List.dropWhile_sublist p).length_le

/-- Word decomposition equivalent of Python `str.split()`: skip
whitespace, take a maximal word, recurse on the remainder. -/
def wordsW : List Char → List (List Char)
  | [] => []
  | c :: rest =>
    if isSpc c then wordsW rest
    else (c :: rest.takeWhile nw) :: wordsW (rest.dropWhile nw)
termination_by l => l.length
decreasing_by
  · simp only [List.length_cons]
    exact Nat.lt_succ_self _
  · simp only [List.length_cons]
    exact Nat.lt_succ_of_le (length_dropWhile_le nw rest)

/-- Spec model: collapse every maximal run of whitespace characters to a
single ASCII space (spec §4.2). -/
def collapseWs : List Char → List Char
  | [] => []
  | c :: rest =>
    if isSpc c then ' ' :: collapseWs (rest.dropWhile isSpc)
    else c :: collapseWs rest
termination_by l => l.length
decreasing_by
  · simp only [List.length_cons]
    exact Nat.lt_succ_of_le (length_dropWhile_le isSpc rest)
  · simp only [List.length_cons]
    exact Nat.lt_succ_self _

/-- Spec model: trim trailing whitespace. -/
def trimEnd (l : List Char) : List Char :=
  (l.reverse.dropWhile isSpc).reverse

/-- Spec model: trim leading and trailing whitespace (spec §4.2). -/
def trimWs (l : List Char) : List Char :=
  trimEnd (l.dropWhile isSpc)

/-- The accumulator scan `splitAux` computes the word decomposition. -/
theorem splitAux_eq (l : List Char) : ∀ cur : List Char,
    splitAux l cur =
      if cur.isEmpty then wordsW l
      else (cur.reverse ++ l.takeWhile nw) :: wordsW (l.dropWhile nw) := by
  induction l with
  | nil =>
    intro cur
    cases cur with
    | nil => simp [splitAux, wordsW]
    | cons d ds => simp [splitAux, wordsW]
  | cons c rest ih =>
    intro cur
    by_cases hc : isSpc c
    · have hnw : nw c = false := by simp [nw, hc]
      cases cur with
      | nil =>
        simp only [splitAux, hc, if_true, List.isEmpty_nil]
        rw [ih []]
        simp [wordsW, hc]
      | cons d ds =>
        simp only [splitAux, hc, if_true, List.isEmpty_cons]
        rw [ih []]
        simp [wordsW, hc, List.takeWhile_cons, List.dropWhile_cons, hnw]
    · have hnw : nw c = true := by simp [nw, hc]
      cases cur with
      | nil =>
        simp only [splitAux, hc, if_false, List.isEmpty_nil]
        rw [ih [c]]
        simp [wordsW, hc]
      | cons d ds =>
        simp only [splitAux, hc, if_false, List.isEmpty_cons]
        rw [ih (c :: d :: ds)]
        simp [List.takeWhile_cons, List.dropWhile_cons, hnw]

/-- Dropping leading whitespace does not change the words. -/
theorem wordsW_dropWhile (l : List Char) :
    wordsW (l.dropWhile isSpc) = wordsW l := by
  induction l with
  | nil => rfl
  | cons c rest ih =>
    by_cases hc : isSpc c
    · rw [List.dropWhile_cons]
      simp only [hc, if_true]
      rw [ih]
      simp [wordsW, hc]
    · rw [List.dropWhile_cons]
      simp [hc]

/-- A list of whitespace characters has no words. -/
theorem wordsW_allspace (l : List Char) (h : ∀ c ∈ l, isSpc c = true) :
    wordsW l = [] := by
  induction l with
  | nil => simp [wordsW]
  | cons c rest ih =>
    have hc : isSpc c = true := h c (List.mem_cons_self c rest)
    simp only [wordsW, hc, if_true]
    exact ih (fun d hd => h d (List.mem_cons_of_mem c hd))

/-- Appending trailing whitespace does not change the words. -/
theorem wordsW_append_space : ∀ (n : Nat) (m sp : List Char), m.length ≤ n →
    (∀ c ∈ sp, isSpc c = true) → wordsW (m ++ sp) = wordsW m := by
  intro n
  induction n with
  | zero =>
    intro m sp hm hsp
    rw [List.eq_nil_of_length_eq_zero (Nat.le_zero.mp hm), List.nil_append,
      wordsW_allspace sp hsp]
    simp [wordsW]
  | succ k ih =>
    intro m sp hm hsp
    cases m with
    | nil =>
      rw [List.nil_append, wordsW_allspace sp hsp]
      simp [wordsW]
    | cons c rest =>
      have hrest : rest.length ≤ k := by
        simp only [List.length_cons] at hm
        omega
      by_cases hc : isSpc c
      · rw [List.cons_append]
        simp only [wordsW, hc, if_true]
        exact ih rest sp hrest hsp
      · have hspTake : sp.takeWhile nw = [] := by
          cases sp with
          | nil => rfl
          | cons x xs =>
            have hx : isSpc x = true := hsp x (List.mem_cons_self x xs)
            simp [List.takeWhile_cons, nw, hx]
        have hspDrop : sp.dropWhile nw = sp := by
          cases sp with
          | nil => rfl
          | cons x xs =>
            have hx : isSpc x = true := hsp x (List.mem_cons_self x xs)
            simp [List.dropWhile_cons, nw, hx]
        have htake : (rest ++ sp).takeWhile nw = rest.takeWhile nw := by
          rw [List.takeWhile_append]
          by_cases hall : (rest.takeWhile nw).length = rest.length
          · rw [if_pos hall, hspTake, List.append_nil]
            exact ((rest.takeWhile_sublist nw).eq_of_length hall).symm
          · rw [if_neg hall]
        have hdrop : (rest ++ sp).dropWhile nw = rest.dropWhile nw ++ sp := by
          rw [List.dropWhile_append]
          by_cases hemp : (rest.dropWhile nw).isEmpty
          · rw [if_pos hemp, hspDrop, List.isEmpty_iff.mp hemp, List.nil_append]
          · rw [if_neg hemp]
        rw [List.cons_append]
        simp only [wordsW, hc, if_false]
        rw [htake, hdrop]
        have hdlen : (rest.dropWhile nw).length ≤ k :=
          Nat.le_trans (length_dropWhile_le nw rest) hrest
        rw [ih (rest.dropWhile nw) sp hdlen hsp]
        simp

/-- Stripping the ends does not change the words. -/
theorem wordsW_strip (l : List Char) : wordsW (stripL l) = wordsW l := by
  have hsplit := List.takeWhile_append_dropWhile isSpc (l.dropWhile isSpc).reverse
  have hu : l.dropWhile isSpc =
      ((l.dropWhile isSpc).reverse.dropWhile isSpc).reverse ++
        ((l.dropWhile isSpc).reverse.takeWhile isSpc).reverse := by
    calc l.dropWhile isSpc = (l.dropWhile isSpc).reverse.reverse :=
          (List.reverse_reverse _).symm
      _ = ((l.dropWhile isSpc).reverse.takeWhile isSpc ++
            (l.dropWhile isSpc).reverse.dropWhile isSpc).reverse := by rw [hsplit]
      _ = _ := by rw [List.reverse_append]
  have hsp : ∀ c ∈ ((l.dropWhile isSpc).reverse.takeWhile isSpc).reverse,
      isSpc c = true := by
    intro c hm
    rw [List.mem_reverse] at hm
    exact List.mem_takeWhile_imp hm
  rw [← wordsW_dropWhile l]
  conv_rhs => rw [hu]
  exact (wordsW_append_space _ _ _ le_rfl hsp).symm

/-- `_clean` joins the words of its input with single spaces. -/
theorem cleanL_eq_joinSp (l : List Char) : cleanL l = joinSp (wordsW l) := by
  unfold cleanL
  rw [splitAux_eq (stripL l) []]
  simp only [List.isEmpty_nil, if_true]
  rw [wordsW_strip]

/-- The head of a `dropWhile` result falsifies the predicate. -/
theorem dropWhile_head_false (p : Char → Bool) :
    ∀ (l : List Char) (c : Char) (t : List Char), l.dropWhile p = c :: t →
      p c = false := by
  intro l
  induction l with
  | nil =>
    intro c t h
    simp at h
  | cons a r ih =>
    intro c t h
    rw [List.dropWhile_cons] at h
    by_cases ha : p a
    · rw [if_pos ha] at h
      exact ih c t h
    · rw [if_neg ha] at h
      injection h with h1 h2
      rw [← h1]
      simpa using ha

/-- Unfolding lemma for trimming after a cons. -/
theorem trimEnd_cons (c : Char) (y : List Char) :
    trimEnd (c :: y) =
      if trimEnd y = [] then (if isSpc c then [] else [c]) else c :: trimEnd y := by
  unfold trimEnd
  rw [List.reverse_cons, List.dropWhile_append]
  by_cases hemp : y.reverse.dropWhile isSpc = []
  · rw [hemp]
    by_cases hc : isSpc c <;> simp [List.dropWhile_cons, hc]
  · rw [if_neg (by simpa using hemp), if_neg (by simpa using hemp),
      List.reverse_append]
    simp

/-- Trailing-trim commutes with a non-whitespace head. -/
theorem trimEnd_cons_nonspace (c : Char) (y : List Char) (hc : isSpc c = false) :
    trimEnd (c :: y) = c :: trimEnd y := by
  rw [trimEnd_cons]
  by_cases hy : trimEnd y = []
  · rw [if_pos hy, if_neg (by simp [hc]), hy]
  · rw [if_neg hy]

/-- On input with no leading whitespace, the full trim is the trailing trim. -/
theorem trimWs_collapse_of_clean_head (r : List Char) :
    trimWs (collapseWs (r.dropWhile isSpc)) = trimEnd (collapseWs (r.dropWhile isSpc)) := by
  cases hz : r.dropWhile isSpc with
  | nil => simp [collapseWs, trimWs, trimEnd]
  | cons c t =>
    have hc : isSpc c = false := dropWhile_head_false isSpc r c t hz
    have hcoll : collapseWs (c :: t) = c :: collapseWs t := by simp [collapseWs, hc]
    rw [hcoll]
    unfold trimWs
    rw [List.dropWhile_cons, if_neg (by simp [hc])]

/-- Every word produced by the decomposition is non-empty. -/
theorem wordsW_head_ne_nil : ∀ (l : List Char) (w : List Char) (ws : List (List Char)),
    wordsW l = w :: ws → w ≠ [] := by
  intro l
  induction l with
  | nil =>
    intro w ws h
    simp [wordsW] at h
  | cons c rest ih =>
    intro w ws h
    by_cases hc : isSpc c
    · rw [show wordsW (c :: rest) = wordsW rest by simp [wordsW, hc]] at h
      exact ih w ws h
    · rw [show wordsW (c :: rest) =
          (c :: rest.takeWhile nw) :: wordsW (rest.dropWhile nw) by
            simp [wordsW, hc]] at h
      injection h with h1 h2
      rw [← h1]
      simp

/-- Main equivalence, by strong induction on the length: the trimmed
collapse of a list is the space-join of its words, and the
trailing-trimmed collapse is the first word glued to the separator-join
of the rest. -/
theorem collapse_trim_eq_join : ∀ (n : Nat) (l : List Char), l.length ≤ n →
    trimWs (collapseWs l) = joinSp (wordsW l) ∧
    trimEnd (collapseWs l) =
      l.takeWhile nw ++ sepJoin (wordsW (l.dropWhile nw)) := by
  intro n
  induction n with
  | zero =>
    intro l hl
    rw [List.eq_nil_of_length_eq_zero (Nat.le_zero.mp hl)]
    exact ⟨by simp [collapseWs, trimWs, trimEnd, wordsW, joinSp],
      by simp [collapseWs, trimEnd, wordsW, sepJoin]⟩
  | succ k ih =>
    intro l hl
    cases l with
    | nil =>
      exact ⟨by simp [collapseWs, trimWs, trimEnd, wordsW, joinSp],
        by simp [collapseWs, trimEnd, wordsW, sepJoin]⟩
    | cons c rest =>
      have hrest : rest.length ≤ k := by
        simp only [List.length_cons] at hl
        omega
      have hz : (rest.dropWhile isSpc).length ≤ k :=
        Nat.le_trans (length_dropWhile_le isSpc rest) hrest
      by_cases hc : isSpc c
      · have hnwc : nw c = false := by simp [nw, hc]
        have hcoll : collapseWs (c :: rest) =
            ' ' :: collapseWs (rest.dropWhile isSpc) := by simp [collapseWs, hc]
        have hTE : trimEnd (collapseWs (rest.dropWhile isSpc)) =
            joinSp (wordsW (rest.dropWhile isSpc)) := by
          rw [← trimWs_collapse_of_clean_head rest]
          exact (ih (rest.dropWhile isSpc) hz).1
        constructor
        · calc trimWs (collapseWs (c :: rest))
              = trimWs (' ' :: collapseWs (rest.dropWhile isSpc)) := by rw [hcoll]
            _ = trimWs (collapseWs (rest.dropWhile isSpc)) := by
                unfold trimWs
                rw [List.dropWhile_cons, if_pos (by decide : isSpc ' ' = true)]
            _ = joinSp (wordsW (rest.dropWhile isSpc)) :=
                (ih (rest.dropWhile isSpc) hz).1
            _ = joinSp (wordsW rest) := by rw [wordsW_dropWhile]
            _ = joinSp (wordsW (c :: rest)) := by
                rw [show wordsW (c :: rest) = wordsW rest by simp [wordsW, hc]]
        · rw [hcoll, trimEnd_cons ' ' _, if_pos (by decide : isSpc ' ' = true)]
          rw [hTE]
          rw [List.takeWhile_cons, List.dropWhile_cons]
          simp only [hnwc, Bool.false_eq_true, if_false]
          rw [show wordsW (c :: rest) = wordsW rest by simp [wordsW, hc],
            ← wordsW_dropWhile rest, List.nil_append]
          cases hw : wordsW (rest.dropWhile isSpc) with
          | nil => simp [joinSp, sepJoin]
          | cons w ws =>
            have hwne : w ≠ [] := wordsW_head_ne_nil _ w ws hw
            have hjoin : joinSp (w :: ws) ≠ [] := by
              cases w with
              | nil => exact absurd rfl hwne
              | cons a as => simp [joinSp]
            rw [if_neg hjoin]
            simp [joinSp, sepJoin]
      · have hnwc : nw c = true := by simp [nw, hc]
        have hcf : isSpc c = false := by simpa using hc
        have hcoll : collapseWs (c :: rest) = c :: collapseWs rest := by
          simp [collapseWs, hc]
        have hW := (ih rest hrest).2
        constructor
        · have h1 : trimWs (collapseWs (c :: rest)) = c :: trimEnd (collapseWs rest) := by
            rw [hcoll]
            unfold trimWs
            rw [List.dropWhile_cons, if_neg (by simp [hcf])]
            exact trimEnd_cons_nonspace c _ hcf
          have h2 : wordsW (c :: rest) =
              (c :: rest.takeWhile nw) :: wordsW (rest.dropWhile nw) := by
            simp [wordsW, hc]
          rw [h1, hW, h2]
          simp [joinSp]
        · have h1 : trimEnd (collapseWs (c :: rest)) = c :: trimEnd (collapseWs rest) := by
            rw [hcoll]
            exact trimEnd_cons_nonspace c _ hcf
          rw [h1, hW, List.takeWhile_cons, List.dropWhile_cons]
          simp [hnwc]

/-- `_clean` computes exactly the collapse-and-trim normalization of the spec. -/
theorem cleanL_eq_spec (l : List Char) : cleanL l = trimWs (collapseWs l) := by
  rw [cleanL_eq_joinSp]
  exact ((collapse_trim_eq_join l.length l le_rfl).1).symm

/-- Words contain no whitespace and are non-empty. -/
theorem wordsW_good : ∀ (n : Nat) (l : List Char), l.length ≤ n →
    ∀ w ∈ wordsW l, w ≠ [] ∧ ∀ c ∈ w, nw c = true := by
  intro n
  induction n with
  | zero =>
    intro l hl w hw
    rw [List.eq_nil_of_length_eq_zero (Nat.le_zero.mp hl)] at hw
    simp [wordsW] at hw
  | succ k ih =>
    intro l hl w hw
    cases l with
    | nil => simp [wordsW] at hw
    | cons c rest =>
      have hrest : rest.length ≤ k := by
        simp only [List.length_cons] at hl
        omega
      by_cases hc : isSpc c
      · rw [show wordsW (c :: rest) = wordsW rest by simp [wordsW, hc]] at hw
        exact ih rest hrest w hw
      · rw [show wordsW (c :: rest) =
            (c :: rest.takeWhile nw) :: wordsW (rest.dropWhile nw) by
              simp [wordsW, hc]] at hw
        rcases List.mem_cons.mp hw with h | h
        · subst h
          refine ⟨by simp, ?_⟩
          intro d hd
          rcases List.mem_cons.mp hd with h1 | h1
          · subst h1
            simp [nw, hc]
          · exact List.mem_takeWhile_imp h1
        · exact ih (rest.dropWhile nw)
            (Nat.le_trans (length_dropWhile_le nw rest) hrest) w h

/-- Splitting an all-true prefix off a list whose remainder starts false. -/
theorem split_word_boundary (p : Char → Bool) :
    ∀ (xs ys : List Char), (∀ c ∈ xs, p c = true) →
      (∀ y t, ys = y :: t → p y = false) →
      (xs ++ ys).takeWhile p = xs ∧ (xs ++ ys).dropWhile p = ys := by
  intro xs
  induction xs with
  | nil =>
    intro ys hall hy
    cases ys with
    | nil => exact ⟨rfl, rfl⟩
    | cons y t =>
      have hyf : p y = false := hy y t rfl
      exact ⟨by simp [List.takeWhile_cons, hyf], by simp [List.dropWhile_cons, hyf]⟩
  | cons x xs ih =>
    intro ys hall hy
    have hx : p x = true := hall x (List.mem_cons_self x xs)
    have hxs : ∀ c ∈ xs, p c = true := fun c hc => hall c (List.mem_cons_of_mem x hc)
    obtain ⟨h1, h2⟩ := ih ys hxs hy
    constructor
    · rw [List.cons_append, List.takeWhile_cons, if_pos hx, h1]
    · rw [List.cons_append, List.dropWhile_cons, if_pos hx, h2]

/-- Splitting the space-join of good words recovers the words. -/
theorem wordsW_joinSp : ∀ (ws : List (List Char)),
    (∀ w ∈ ws, w ≠ [] ∧ ∀ c ∈ w, nw c = true) → wordsW (joinSp ws) = ws := by
  intro ws
  induction ws with
  | nil =>
    intro _
    simp [joinSp, wordsW]
  | cons w vs ih =>
    intro h
    obtain ⟨hwne, hwall⟩ := h w (List.mem_cons_self w vs)
    cases w with
    | nil => exact absurd rfl hwne
    | cons c w' =>
      have hc : nw c = true := hwall c (List.mem_cons_self c w')
      have hcs : isSpc c = false := by simpa [nw] using hc
      have hw'all : ∀ d ∈ w', nw d = true :=
        fun d hd => hwall d (List.mem_cons_of_mem c hd)
      have hsepfalse : ∀ y t, sepJoin vs = y :: t → nw y = false := by
        cases vs with
        | nil =>
          intro y t hcontra
          simp [sepJoin] at hcontra
        | cons v vs2 =>
          intro y t hcontra
          rw [show sepJoin (v :: vs2) = ' ' :: (v ++ sepJoin vs2) from rfl] at hcontra
          injection hcontra with h1 _
          rw [← h1]
          decide
      obtain ⟨htake, hdrop⟩ := split_word_boundary nw w' (sepJoin vs) hw'all hsepfalse
      have hjs : joinSp ((c :: w') :: vs) = c :: (w' ++ sepJoin vs) := by simp [joinSp]
      rw [hjs]
      rw [show wordsW (c :: (w' ++ sepJoin vs)) =
          (c :: (w' ++ sepJoin vs).takeWhile nw) ::
            wordsW ((w' ++ sepJoin vs).dropWhile nw) by simp [wordsW, hcs]]
      rw [htake, hdrop]
      congr 1
      cases vs with
      | nil => simp [sepJoin, wordsW]
      | cons v vs2 =>
        have hspc : isSpc ' ' = true := by decide
        rw [show sepJoin (v :: vs2) = ' ' :: joinSp (v :: vs2) by simp [sepJoin, joinSp]]
        rw [show wordsW (' ' :: joinSp (v :: vs2)) = wordsW (joinSp (v :: vs2)) by
          simp [wordsW, hspc]]
        exact ih (fun u hu => h u (List.mem_cons_of_mem _ hu))

/-- `_clean` is idempotent at the character-list level. -/
theorem cleanL_idem (l : List Char) : cleanL (cleanL l) = cleanL l := by
  rw [cleanL_eq_joinSp l, cleanL_eq_joinSp (joinSp (wordsW l)),
    wordsW_joinSp (wordsW l) (wordsW_good l.length l le_rfl)]

/-- A list with no words is all whitespace. -/
theorem wordsW_eq_nil_imp : ∀ (l : List Char), wordsW l = [] →
    ∀ c ∈ l, isSpc c = true := by
  intro l
  induction l with
  | nil =>
    intro _ c hc
    simp at hc
  | cons c rest ih =>
    intro h d hd
    by_cases hc : isSpc c
    · rw [show wordsW (c :: rest) = wordsW rest by simp [wordsW, hc]] at h
      rcases List.mem_cons.mp hd with h1 | h1
      · subst h1
        simpa using hc
      · exact ih h d h1
    · rw [show wordsW (c :: rest) =
          (c :: rest.takeWhile nw) :: wordsW (rest.dropWhile nw) by
            simp [wordsW, hc]] at h
      simp at h

/-- `_clean` collapses to the empty list exactly on all-whitespace input. -/
theorem cleanL_eq_nil_iff (l : List Char) :
    cleanL l = [] ↔ ∀ c ∈ l, isSpc c = true := by
  rw [cleanL_eq_joinSp]
  constructor
  · intro h c hc
    cases hw : wordsW l with
    | nil => exact wordsW_eq_nil_imp l hw c hc
    | cons w ws =>
      rw [hw] at h
      have hwne : w ≠ [] := wordsW_head_ne_nil l w ws hw
      cases w with
      | nil => exact absurd rfl hwne
      | cons a as => simp [joinSp] at h
  · intro h
    rw [wordsW_allspace l h]
    simp [joinSp]

/-- String-level version of `cleanL_eq_nil_iff`. -/
theorem clean_eq_empty_iff (s : String) :
    clean s = "" ↔ ∀ c ∈ s.data, isSpc c = true := by
  rw [String.ext_iff]
  exact cleanL_eq_nil_iff s.data

/-- C5: the normalization function is a total pure function that maps
`null` to the empty string and otherwise computes exactly the specified
collapse-every-whitespace-run-and-trim transformation; in particular
`normalize("  a   b  ") = "a b"` and `normalize(null) = ""`. -/
theorem clean_matches_spec :
    (∀ s : String, (cleanOpt (some s)).data = trimWs (collapseWs s.data)) ∧
    cleanOpt none = "" ∧
    cleanOpt (some "  a   b  ") = "a b" :=
  ⟨fun s => cleanL_eq_spec s.data, rfl, rfl⟩

/-- C9: the normalization function is idempotent. -/
theorem clean_idempotent : ∀ s : String, clean (clean s) = clean s := by
  intro s
  rw [String.ext_iff]
  exact cleanL_idem s.data

/-- C1 (counterexample): the single-space name `" "` passes the length
validation (raw length 1 is within `[1, 60]`) yet `create_guestbook`
stores the empty string for it, because normalization runs after
validation and collapses the whitespace-only name to `""`. -/
theorem whitespace_name_stored_empty :
    GuestbookIn.valid ⟨" ", "hi"⟩ ∧
    (createGuestbook ⟨[], 1, [], 1⟩ ⟨" ", "hi"⟩ "T").1.guestbook =
      [⟨1, "T", "", "hi"⟩] :=
  ⟨by decide, rfl⟩

/-- C1 (amended): for every valid payload, `create_guestbook` stores the
normalized name and message; a stored field is empty exactly when the
corresponding raw input consists entirely of whitespace (so the stored
values are non-empty for every valid input containing at least one
non-whitespace character). -/
theorem create_guestbook_stores_clean : ∀ (s : Store) (p : GuestbookIn) (now : String),
    p.valid →
    (createGuestbook s p now).1.guestbook =
      s.guestbook ++ [⟨s.gNext, now, clean p.name, clean p.message⟩] ∧
    (clean p.name = "" ↔ ∀ c ∈ p.name.data, isSpc c = true) ∧
    (clean p.message = "" ↔ ∀ c ∈ p.message.data, isSpc c = true) := by
  intro s p now _
  exact ⟨rfl, clean_eq_empty_iff p.name, clean_eq_empty_iff p.message⟩

/-- Witness for C1 (amended): the concrete valid payload
with name Ann and message hi is stored normalized and non-empty. -/
theorem create_guestbook_stores_clean_witness :
    (createGuestbook ⟨[], 1, [], 1⟩ ⟨"Ann", "hi"⟩ "T").1.guestbook =
      [] ++ [⟨1, "T", clean "Ann", clean "hi"⟩] ∧
    (clean "Ann" = "" ↔ ∀ c ∈ "Ann".data, isSpc c = true) ∧
    (clean "hi" = "" ↔ ∀ c ∈ "hi".data, isSpc c = true) :=
  create_guestbook_stores_clean ⟨[], 1, [], 1⟩ ⟨"Ann", "hi"⟩ "T" (by decide)

end DogBirthday
